import Mathlib

/-!
Verification of the extraction-pipeline core of the
brazil-congress-transparency-project repository.

The Python source under `src/extraction/` is shallowly embedded below:
pure helpers become Lean functions, `date.today()` becomes an explicit
`today` parameter, Python exceptions become `Option`/`Except` results,
and the file system touched by `save_parquet` becomes an explicit state
value.  Library calls with well-known semantics (Polars `unique`/`sort`,
Python `str.split`, `int(...)`) are modelled by executable Lean
functions whose behaviour matches the documented library behaviour on
the inputs the code can reach.
-/

namespace Congress

/-- A scalar cell value of a flat record (string, integer or null),
the value space of the JSON-ish dictionaries the extractors handle. -/
inductive Value where
  | vnull : Value
  | vint : Int → Value
  | vstr : String → Value
deriving DecidableEq

/-- A flat record: an association list from column name to value,
modelling a Python dict row. -/
abbrev Row := List (String × Value)

/-- Leap-year rule used by Python's `calendar` module
(Gregorian: divisible by 4 and not by 100 unless by 400). -/
def isLeap (y : Nat) : Bool :=
  y % 4 == 0 && (y % 100 != 0 || y % 400 == 0)

/-- Number of days in a month, `calendar.monthrange(y, m)[1]`. -/
def daysInMonth (y m : Nat) : Nat :=
  if m = 2 then (if isLeap y then 29 else 28)
  else if m = 4 ∨ m = 6 ∨ m = 9 ∨ m = 11 then 30
  else 31

/-- A calendar date, as Python's `datetime.date`: a valid
(year, month, day) triple. -/
structure Date where
  year : Nat
  month : Nat
  day : Nat
  month_valid : 1 ≤ month ∧ month ≤ 12
  day_valid : 1 ≤ day ∧ day ≤ daysInMonth year month

instance : DecidableEq Date := fun a b =>
  if h : a.year = b.year ∧ a.month = b.month ∧ a.day = b.day then
    isTrue (by cases a; cases b; simp only at h; simp [h.1, h.2.1, h.2.2])
  else
    isFalse (fun he => h (by cases he; exact ⟨rfl, rfl, rfl⟩))

/-- A raw (year, month, day) triple, the shape of a date without its
validity invariant; window endpoints are reported in this form. -/
abbrev RawDate := Nat × Nat × Nat

/-- Forget a date's validity proof. -/
def Date.raw (d : Date) : RawDate := (d.year, d.month, d.day)

/-- Lexicographic order on (year, month) pairs — Python tuple `<=`. -/
def pairLe (a b : Nat × Nat) : Prop :=
  a.1 < b.1 ∨ (a.1 = b.1 ∧ a.2 ≤ b.2)

instance (a b : Nat × Nat) : Decidable (pairLe a b) := by
  unfold pairLe; infer_instance

/-- Lexicographic order on raw date triples — Python tuple `<=`,
which is also how `datetime.date` objects compare. -/
def rawLe (a b : RawDate) : Prop :=
  a.1 < b.1 ∨ (a.1 = b.1 ∧ (a.2.1 < b.2.1 ∨ (a.2.1 = b.2.1 ∧ a.2.2 ≤ b.2.2)))

instance (a b : RawDate) : Decidable (rawLe a b) := by
  unfold rawLe; infer_instance

/-- Python `min` on two (year, month) tuples: the first argument wins ties. -/
def minPair (a b : Nat × Nat) : Nat × Nat := if pairLe a b then a else b

/-- Python `min` on two dates: the first argument wins ties. -/
def minDate (a b : Date) : Date := if rawLe a.raw b.raw then a else b

/-- Python `min` on two raw date triples. -/
def minRaw (a b : RawDate) : RawDate := if rawLe a b then a else b

/-- Linearised month index: months since year 0, so that the successor
month has the next index.  Meaningful for month components in 1..12. -/
def mlin (p : Nat × Nat) : Nat := 12 * p.1 + (p.2 - 1)

/-- Inverse of `mlin`: the (year, month) pair of a linear month index. -/
def mofLin (n : Nat) : Nat × Nat := (n / 12, n % 12 + 1)

/-- The month-increment step at the bottom of both windowing loops in
`utils.py`: `m += 1; if m > 12: m = 1; y += 1`. -/
def monthSucc (p : Nat × Nat) : Nat × Nat :=
  if p.2 + 1 > 12 then (p.1 + 1, 1) else (p.1, p.2 + 1)

/-- The `while (y, m) <= (cutoff_y, cutoff_m)` loop of `month_windows`
(`utils.py`).  `fuel` bounds the number of iterations; `month_windows`
passes exactly the number of months the guard admits, which
`month_windows_loop_eq` proves is enough. -/
def month_windows_loop (cutoff : Nat × Nat) : Nat → Nat × Nat → List (Nat × Nat)
  | 0, _ => []
  | fuel + 1, ym =>
      if pairLe ym cutoff then ym :: month_windows_loop cutoff fuel (monthSucc ym)
      else []

/-- `month_windows(start, end)` from `utils.py`, with `date.today()`
made an explicit parameter: (year, month) tuples from start's month to
`min((end.year, end.month), (today.year, today.month))`. -/
def month_windows (start end_ today : Date) : List (Nat × Nat) :=
  let cutoff := minPair (end_.year, end_.month) (today.year, today.month)
  month_windows_loop cutoff
    (mlin cutoff + 1 - mlin (start.year, start.month))
    (start.year, start.month)

/-- The `while date(y, m, 1) <= cutoff` loop of `month_date_windows`
(`utils.py`): one (first-of-month, min(last-of-month, cutoff)) window
per month.  Windows are reported as raw triples. -/
def month_date_windows_loop (cutoff : RawDate) : Nat → Nat × Nat → List (RawDate × RawDate)
  | 0, _ => []
  | fuel + 1, ym =>
      if rawLe (ym.1, ym.2, 1) cutoff then
        let last_day := daysInMonth ym.1 ym.2
        ((ym.1, ym.2, 1), minRaw (ym.1, ym.2, last_day) cutoff) ::
          month_date_windows_loop cutoff fuel (monthSucc ym)
      else []

/-- `month_date_windows(start, end)` from `utils.py`, with
`date.today()` explicit: per-month (window_start, window_end) date
pairs, the last window capped at `min(end, today)`. -/
def month_date_windows (start end_ today : Date) : List (RawDate × RawDate) :=
  let cutoff := minDate end_ today
  month_date_windows_loop cutoff.raw
    (mlin (cutoff.year, cutoff.month) + 1 - mlin (start.year, start.month))
    (start.year, start.month)

/-- The argument of `unwrap_list`: a Python value that is `None`,
a dict, or a list (of dicts). -/
inductive ListOrDict (α : Type) where
  | none : ListOrDict α
  | dict : α → ListOrDict α
  | list : List α → ListOrDict α

/-- `unwrap_list` from `utils.py`: `None → []`, `dict → [dict]`,
`list → list` (unchanged). -/
def unwrap_list {α : Type} : ListOrDict α → List α
  | .none => []
  | .dict d => [d]
  | .list l => l

/-- The private `_unwrap_list` duplicated in `extract_comissoes.py`:
`[obj] if isinstance(obj, dict) else obj`, with a `None` guard. -/
def comissoes_unwrap_list {α : Type} : ListOrDict α → List α
  | .none => []
  | .dict d => [d]
  | .list l => l

/-- The key tuple `polars` deduplicates on: the row's values at the
`unique_subset` columns (a missing column reads as `none`). -/
def keyOf (subset : List String) (r : Row) : List (Option Value) :=
  subset.map (fun c => r.lookup c)

/-- Semantic model of `polars.DataFrame.unique(subset=K)`: keep one row
per distinct key tuple.  Polars leaves the surviving representative
unspecified; this model keeps the first occurrence, which has the same
row count as any other choice. -/
def dedupBy (K : List String) : List Row → List Row
  | [] => []
  | r :: rs => r :: dedupBy K (rs.filter (fun x => !(keyOf K x == keyOf K r)))
termination_by l => l.length
decreasing_by
  exact Nat.lt_succ_of_le (List.length_filter_le _ _)

/-- A total comparison on cell values (nulls first, then integers, then
strings), standing in for the polars column ordering. -/
def valueLeB : Value → Value → Bool
  | .vnull, _ => true
  | .vint _, .vnull => false
  | .vint a, .vint b => a ≤ b
  | .vint _, .vstr _ => true
  | .vstr _, .vnull => false
  | .vstr _, .vint _ => false
  | .vstr a, .vstr b => a ≤ b

/-- Comparison on optional cell values: a missing column sorts first. -/
def optValLeB : Option Value → Option Value → Bool
  | none, _ => true
  | some _, none => false
  | some a, some b => valueLeB a b

/-- Lexicographic row comparison over the `sort_by` columns. -/
def rowLeB (cols : List String) (a b : Row) : Bool :=
  match cols with
  | [] => true
  | c :: rest =>
      if a.lookup c = b.lookup c then rowLeB rest a b
      else optValLeB (a.lookup c) (b.lookup c)

/-- Insert a row into a sorted list of rows. -/
def insertRow (cols : List String) (r : Row) : List Row → List Row
  | [] => [r]
  | x :: xs => if rowLeB cols r x then r :: x :: xs else x :: insertRow cols r xs

/-- Semantic model of `polars.DataFrame.sort(cols)`: a stable insertion
sort.  Only the fact that sorting permutes (hence preserves the number
of) rows is relied on. -/
def sortRows (cols : List String) : List Row → List Row
  | [] => []
  | r :: rs => insertRow cols r (sortRows cols rs)

/-- The file-system state `save_parquet` can touch: parquet file
contents by path, plus which directories exist. -/
structure FileSystem where
  files : String → Option (List Row)
  dirs : String → Bool

/-- `save_parquet(records, path, unique_subset=, sort_by=, safe_schema=)`
from `utils.py`.  The Polars DataFrame is modelled as the list of rows;
`path.parent.mkdir` and `df.write_parquet(path)` become updates of the
explicit file-system state; the returned value is `len(df)` after
deduplication.  An empty `records` list returns 0 without touching the
file system.  (`safe_schema` only tunes Polars type inference, which the
row-list model does not need; the `if unique_subset:`/`if sort_by:`
truthiness tests make `none` and the empty list equivalent, as in
Python.) -/
def save_parquet (records : List Row) (path parent : String)
    (unique_subset : Option (List String)) (sort_by : Option (List String))
    (fs : FileSystem) : Nat × FileSystem :=
  if records.isEmpty then (0, fs)
  else
    let df := records
    let df := match unique_subset with
      | some K => if K.isEmpty then df else dedupBy K df
      | none => df
    let df := match sort_by with
      | some cols => if cols.isEmpty then df else sortRows cols df
      | none => df
    (df.length,
      { files := fun q => if q = path then some df else fs.files q,
        dirs := fun q => q == parent || fs.dirs q })

/-- The number of distinct natural-key tuples occurring in a record
collection. -/
def distinctKeyCount (K : List String) (records : List Row) : Nat :=
  (records.map (keyOf K)).dedup.length

/-- An empty file system (no files, no directories). -/
def emptyFS : FileSystem := ⟨fun _ => none, fun _ => false⟩

/-- The keyword-argument dict `_run_one` builds in `pipeline.py`
(possible keys: `start_year`, `end_year`, `start`, `end`). -/
structure Kwargs where
  start_year : Option Int
  end_year : Option Int
  start : Option Date
  end_ : Option Date
deriving DecidableEq

/-- One registry entry of `pipeline.py`: the `extract_all` entry point
(modelled as a function that may raise, i.e. return `.error`) and the
declared argument tags.  The human description plays no role in
dispatch and is omitted. -/
structure Entry where
  fn : Kwargs → Except String Unit
  args : List String

/-- Lines 139-147 of `pipeline.py`: forward a CLI temporal value iff
the extractor declares the corresponding tag. -/
def build_kwargs (arg_tags : List String) (start_year end_year : Int)
    (start_date end_date : Date) : Kwargs :=
  { start_year := if arg_tags.contains "start_year" then some start_year else none,
    end_year := if arg_tags.contains "end_year" then some end_year else none,
    start := if arg_tags.contains "start_date" then some start_date else none,
    end_ := if arg_tags.contains "end_date" then some end_date else none }

/-- Outcome of one extractor run: success, or the caught failure with
the log line `_run_one` prints. -/
inductive RunOutcome where
  | succeeded : RunOutcome
  | failed : String → RunOutcome
deriving DecidableEq

/-- `_run_one` from `pipeline.py`: build the kwargs from the entry's
declared tags, call the entry point, and catch any exception, turning
it into the `FAILED [name]: exc` log line instead of propagating. -/
def run_one (name : String) (entry : Entry) (start_year end_year : Int)
    (start_date end_date : Date) : RunOutcome :=
  match entry.fn (build_kwargs entry.args start_year end_year start_date end_date) with
  | .ok _ => .succeeded
  | .error exc => .failed ("FAILED [" ++ name ++ "]: " ++ exc)

/-- The `for name, entry in to_run.items()` loop at the end of
`main` in `pipeline.py`: run every selected extractor in order. -/
def run_loop (to_run : List (String × Entry)) (start_year end_year : Int)
    (start_date end_date : Date) : List (String × RunOutcome) :=
  match to_run with
  | [] => []
  | (name, entry) :: rest =>
      (name, run_one name entry start_year end_year start_date end_date) ::
        run_loop rest start_year end_year start_date end_date

/-- The run phase of `main` in `pipeline.py`: the per-extractor
outcomes plus the process exit code, which is 0 because `main` falls
off its end (no `sys.exit`) regardless of extractor failures. -/
def main_run (to_run : List (String × Entry)) (start_year end_year : Int)
    (start_date end_date : Date) : List (String × RunOutcome) × Nat :=
  (run_loop to_run start_year end_year start_date end_date, 0)

/-- One entry of a Chamber-API `links` array: `rel` read with `.get`
(may be absent), `href` read with indexing (present on the links the
code touches). -/
structure PageLink where
  rel : Option String
  href : String

/-- A Chamber-API response envelope `{"dados": [...], "links": [...]}`;
either field may be absent or null, which the code guards with
`or []`. -/
structure Envelope (α : Type) where
  dados : Option (List α)
  links : Option (List PageLink)

/-- Query parameters, as the entries of a Python dict. -/
abbrev Params := List (String × Value)

/-- Base URL of the Chamber of Deputies API (`camara_client.py`). -/
def CAMARA_BASE : String := "https://dadosabertos.camara.leg.br/api/v2"

/-- The `next(... if lnk.get("rel") == "next" ...)` expression in
`get_all`: the `href` of the first link whose `rel` is `"next"`. -/
def next_link {α : Type} (data : Envelope α) : Option String :=
  ((data.links.getD []).find? (fun lnk => lnk.rel == some "next")).map (fun lnk => lnk.href)

/-- Lines 110-113 of `camara_client.py`: default the parameters to `{}`
and add `itens=100` when the caller did not supply an `itens` key. -/
def with_itens (params : Option Params) : Params :=
  let p := params.getD []
  if p.any (fun kv => kv.1 == "itens") then p else p ++ [("itens", Value.vint 100)]

/-- The `while url and pages_fetched < max_pages` loop of
`CamaraApiClient.get_all`.  The HTTP round trip is abstracted into
`src`, a function from (URL, optional parameters) to the decoded
response envelope. -/
def get_all_loop {α : Type} (src : String → Option Params → Envelope α)
    (url : Option String) (current_params : Option Params)
    (pages_fetched max_pages : Nat) (all_records : List α) : List α :=
  match url with
  | none => all_records
  | some u =>
      if pages_fetched < max_pages then
        let data := src u current_params
        let records := data.dados.getD []
        if records.isEmpty then all_records
        else
          get_all_loop src (next_link data) none (pages_fetched + 1) max_pages
            (all_records ++ records)
      else all_records
termination_by max_pages - pages_fetched
decreasing_by omega

/-- `CamaraApiClient.get_all(path, params, max_pages=...)` from
`camara_client.py`. -/
def get_all {α : Type} (src : String → Option Params → Envelope α)
    (path : String) (params : Option Params) (max_pages : Nat) : List α :=
  get_all_loop src (some (CAMARA_BASE ++ path)) (some (with_itens params)) 0 max_pages []

/-- Reference recursion for `get_all`: starting from a URL with a page
budget, fetch a page; stop with nothing on an empty page; otherwise
keep its records, count it, and continue through the `next` link while
budget remains.  Returns (records, pages fetched). -/
def collect_pages {α : Type} (src : String → Option Params → Envelope α) :
    Nat → String → Option Params → List α × Nat
  | 0, _, _ => ([], 0)
  | budget + 1, url, ps =>
      let data := src url ps
      let records := data.dados.getD []
      if records.isEmpty then ([], 0)
      else
        match next_link data with
        | none => (records, 1)
        | some u2 =>
            let rest := collect_pages src budget u2 none
            (records ++ rest.1, rest.2 + 1)

/-- A Python string, modelled as its character list so that the
splitting done by `flatten_processo_record` can be reasoned about
directly. -/
abbrev PStr := List Char

/-- Python `s.split(sep, 1)` for a one-character separator that occurs
in `s`: the parts before and after the first occurrence. -/
def splitFirst (c : Char) : PStr → PStr × PStr
  | [] => ([], [])
  | a :: rest =>
      if a = c then ([], rest)
      else
        let p := splitFirst c rest
        (a :: p.1, p.2)

/-- Python `s.split(sep)` for a one-character separator: all parts, in
order; always at least one part. -/
def splitAll (c : Char) : PStr → List PStr
  | [] => [[]]
  | a :: rest =>
      let ps := splitAll c rest
      if a = c then [] :: ps
      else
        match ps with
        | [] => [[a]]
        | p :: tailParts => (a :: p) :: tailParts

/-- Numeric value of a digit string. -/
def digitsVal (s : PStr) : Nat :=
  s.foldl (fun acc c => acc * 10 + (c.toNat - 48)) 0

/-- Whether a string is a non-empty run of decimal digits. -/
def isDigits (s : PStr) : Bool :=
  !s.isEmpty && s.all (fun c => c.isDigit)

/-- Python `int(s)` on a string, as used for the parsed year: strips
surrounding spaces, accepts an optional sign before a non-empty digit
run, and raises (`none`) otherwise. -/
def pyInt (s : PStr) : Option Int :=
  let t := ((s.dropWhile (fun c => c = ' ')).reverse.dropWhile (fun c => c = ' ')).reverse
  match t with
  | '-' :: rest => if isDigits rest then some (-(digitsVal rest : Int)) else none
  | '+' :: rest => if isDigits rest then some (digitsVal rest : Int) else none
  | rest => if isDigits rest then some (digitsVal rest : Int) else none

/-- The fields of one raw proposal record from
`GET /processo?sigla=...&ano=...` that `flatten_processo_record`
reads (`transforms/processos.py`).  The fields other than
`identificacao` are passed through unexamined. -/
structure ProcRec where
  identificacao : Option PStr
  id : Option Value
  codigoMateria : Option Value
  ementa : Option Value
  tipoDocumento : Option Value
  dataApresentacao : Option Value
  autoria : Option Value
  casaIdentificadora : Option Value
  tramitando : Option Value
  dataUltimaAtualizacao : Option Value
  urlDocumento : Option Value

/-- The flat proposal record produced by `flatten_processo_record`. -/
structure FlatProc where
  id_processo : Option Value
  codigo_materia : Option Value
  identificacao : Option PStr
  sigla_materia : Option PStr
  numero_materia : Option PStr
  ano_materia : Option Int
  ementa : Option Value
  tipo_documento : Option Value
  data_apresentacao : Option Value
  autoria : Option Value
  casa_identificadora : Option Value
  tramitando : Option Value
  data_ultima_atualizacao : Option Value
  url_documento : Option Value

/-- `flatten_processo_record` from `transforms/processos.py`.
`rec.get("identificacao") or ""` becomes a default of the empty string;
the `int(...)` call is the one place the function can raise, modelled
by the `Option` result. -/
def flatten_processo_record (r : ProcRec) : Option FlatProc :=
  let ident : PStr := r.identificacao.getD []
  let parts : PStr × PStr :=
    if ident.contains ' ' then splitFirst ' ' ident else (ident, [])
  let num_ano : PStr × Option PStr :=
    if parts.2.contains '/' then
      let ps := splitAll '/' parts.2
      (ps.headD [], ps[1]?)
    else (parts.2, none)
  let anoParsed : Option (Option Int) :=
    match num_ano.2 with
    | none => some none
    | some y => if y.isEmpty then some none else (pyInt y).map some
  anoParsed.map (fun ano =>
    { id_processo := r.id,
      codigo_materia := r.codigoMateria,
      identificacao := if ident.isEmpty then none else some ident,
      sigla_materia := if parts.1.isEmpty then none else some parts.1,
      numero_materia := if num_ano.1.isEmpty then none else some num_ano.1,
      ano_materia := ano,
      ementa := r.ementa,
      tipo_documento := r.tipoDocumento,
      data_apresentacao := r.dataApresentacao,
      autoria := r.autoria,
      casa_identificadora := r.casaIdentificadora,
      tramitando := r.tramitando,
      data_ultima_atualizacao := r.dataUltimaAtualizacao,
      url_documento := r.urlDocumento })

/-- The window a month index `n` contributes in `month_date_windows`:
first day of the month to the earlier of its last day and the cutoff. -/
def winOf (n : Nat) (cutoff : RawDate) : RawDate × RawDate :=
  (((mofLin n).1, (mofLin n).2, 1),
    minRaw ((mofLin n).1, (mofLin n).2, daysInMonth (mofLin n).1 (mofLin n).2) cutoff)

/-- 2019-02-01, the default CLI start date. -/
def d2019_02_01 : Date := ⟨2019, 2, 1, by decide, by decide⟩

/-- 2019-04-15, the end date of the spec's date-window scenario. -/
def d2019_04_15 : Date := ⟨2019, 4, 15, by decide, by decide⟩

/-- 2023-01-01, the start of the spec's year-month scenario. -/
def d2023_01_01 : Date := ⟨2023, 1, 1, by decide, by decide⟩

/-- 2024-12-31, an end date inside 2024 for the year-month scenario. -/
def d2024_12_31 : Date := ⟨2024, 12, 31, by decide, by decide⟩

/-- 2024-06-15, the "today" of the spec's year-month scenario. -/
def d2024_06_15 : Date := ⟨2024, 6, 15, by decide, by decide⟩

/-- A registry entry whose entry point always raises. -/
def failEntry : Entry := ⟨fun _ => .error "boom", []⟩

/-- A registry entry whose entry point always succeeds. -/
def okEntry : Entry := ⟨fun _ => .ok (), []⟩

/-- A page source that always answers one record plus a `next` link. -/
def srcNext : String → Option Params → Envelope Nat :=
  fun _ _ => { dados := some [0], links := some [⟨some "next", "next-url"⟩] }

/-- A concrete proposal record whose identifier follows the
`<TYPE> <NUMBER>/<YEAR>` grammar. -/
def procSample : ProcRec :=
  { identificacao := some ("PL 1234/2025".toList),
    id := some (Value.vint 7), codigoMateria := none, ementa := none,
    tipoDocumento := none, dataApresentacao := none, autoria := none,
    casaIdentificadora := none, tramitando := none,
    dataUltimaAtualizacao := none, urlDocumento := none }

/-!  ## Month arithmetic  -/

theorem mofLin_mlin (ym : Nat × Nat) (h1 : 1 ≤ ym.2) (h2 : ym.2 ≤ 12) :
    mofLin (mlin ym) = ym := by
  obtain ⟨y, m⟩ := ym
  simp only [mofLin, mlin, Prod.mk.injEq]
  omega

theorem mlin_mofLin (n : Nat) : mlin (mofLin n) = n := by
  simp only [mofLin, mlin]
  omega

theorem mofLin_month_valid (n : Nat) : 1 ≤ (mofLin n).2 ∧ (mofLin n).2 ≤ 12 := by
  simp only [mofLin]
  omega

theorem pairLe_iff_mlin (a b : Nat × Nat) (ha1 : 1 ≤ a.2) (ha2 : a.2 ≤ 12)
    (hb1 : 1 ≤ b.2) (hb2 : b.2 ≤ 12) : pairLe a b ↔ mlin a ≤ mlin b := by
  obtain ⟨ay, am⟩ := a
  obtain ⟨by_, bm⟩ := b
  simp only [pairLe, mlin] at *
  omega

theorem monthSucc_valid (ym : Nat × Nat) (h1 : 1 ≤ ym.2) (h2 : ym.2 ≤ 12) :
    1 ≤ (monthSucc ym).2 ∧ (monthSucc ym).2 ≤ 12 := by
  obtain ⟨y, m⟩ := ym
  simp only [monthSucc]
  split <;> (simp only [Prod.snd] at *; omega)

theorem mlin_monthSucc (ym : Nat × Nat) (h1 : 1 ≤ ym.2) (h2 : ym.2 ≤ 12) :
    mlin (monthSucc ym) = mlin ym + 1 := by
  obtain ⟨y, m⟩ := ym
  simp only [monthSucc, mlin]
  split <;> simp_all <;> omega

theorem minPair_month_valid (a b : Nat × Nat) (ha1 : 1 ≤ a.2) (ha2 : a.2 ≤ 12)
    (hb1 : 1 ≤ b.2) (hb2 : b.2 ≤ 12) :
    1 ≤ (minPair a b).2 ∧ (minPair a b).2 ≤ 12 := by
  unfold minPair
  split <;> exact ⟨by assumption, by assumption⟩

/-- The windowing loop of `month_windows` enumerates consecutive month
indices from its starting month while the guard admits them, up to its
fuel; the fuel is irrelevant as soon as it covers the guarded range. -/
theorem month_windows_loop_eq (cutoff : Nat × Nat) (hc1 : 1 ≤ cutoff.2)
    (hc2 : cutoff.2 ≤ 12) :
    ∀ (fuel : Nat) (ym : Nat × Nat), 1 ≤ ym.2 → ym.2 ≤ 12 →
      month_windows_loop cutoff fuel ym =
        (List.range (min fuel (mlin cutoff + 1 - mlin ym))).map
          (fun i => mofLin (mlin ym + i)) := by
  intro fuel
  induction fuel with
  | zero => intro ym h1 h2; simp [month_windows_loop]
  | succ n ih =>
      intro ym h1 h2
      by_cases hg : pairLe ym cutoff
      · have hle : mlin ym ≤ mlin cutoff :=
          (pairLe_iff_mlin ym cutoff h1 h2 hc1 hc2).mp hg
        have hsv := monthSucc_valid ym h1 h2
        rw [month_windows_loop, if_pos hg, ih (monthSucc ym) hsv.1 hsv.2,
          mlin_monthSucc ym h1 h2]
        have hk : min (n + 1) (mlin cutoff + 1 - mlin ym)
            = (min n (mlin cutoff + 1 - (mlin ym + 1))) + 1 := by omega
        rw [hk, List.range_succ_eq_map, List.map_cons, List.map_map]
        congr 1
        · rw [Nat.add_zero, mofLin_mlin ym h1 h2]
        · congr 1
          funext i
          simp only [Function.comp]
          congr 1
          omega
      · have hgt : ¬ mlin ym ≤ mlin cutoff := fun h =>
          hg ((pairLe_iff_mlin ym cutoff h1 h2 hc1 hc2).mpr h)
        rw [month_windows_loop, if_neg hg]
        have : min (n + 1) (mlin cutoff + 1 - mlin ym) = 0 := by omega
        rw [this]
        simp

/-- `month_windows` enumerates exactly the month indices from start's
month through the cutoff month. -/
theorem month_windows_eq (start end_ today : Date) :
    month_windows start end_ today =
      (List.range (mlin (minPair (end_.year, end_.month) (today.year, today.month)) + 1
          - mlin (start.year, start.month))).map
        (fun i => mofLin (mlin (start.year, start.month) + i)) := by
  have hcv := minPair_month_valid (end_.year, end_.month) (today.year, today.month)
    end_.month_valid.1 end_.month_valid.2 today.month_valid.1 today.month_valid.2
  unfold month_windows
  rw [month_windows_loop_eq _ hcv.1 hcv.2 _ _ start.month_valid.1 start.month_valid.2]
  rw [Nat.min_self]

/-- C7: `month_windows` never emits a (year, month) pair later than
today's month: it emits one pair per month from (start.year,
start.month) through min((end.year, end.month), (today.year,
today.month)), with December rolling over to January of the next year
(the consecutive-month-index characterisation), and on the spec
scenario start 2023-01-01, end 2024-12-31, today 2024-06-15 it returns
exactly the 18 tuples (2023,1) … (2024,6). -/
theorem month_windows_correct :
    (∀ start end_ today : Date,
      month_windows start end_ today =
        (List.range (mlin (minPair (end_.year, end_.month) (today.year, today.month)) + 1
            - mlin (start.year, start.month))).map
          (fun i => mofLin (mlin (start.year, start.month) + i)))
    ∧ (∀ start end_ today : Date, ∀ p ∈ month_windows start end_ today,
        pairLe p (today.year, today.month))
    ∧ month_windows d2023_01_01 d2024_12_31 d2024_06_15 =
        [(2023, 1), (2023, 2), (2023, 3), (2023, 4), (2023, 5), (2023, 6),
         (2023, 7), (2023, 8), (2023, 9), (2023, 10), (2023, 11), (2023, 12),
         (2024, 1), (2024, 2), (2024, 3), (2024, 4), (2024, 5), (2024, 6)] := by
  refine ⟨month_windows_eq, ?_, by decide⟩
  intro start end_ today p hp
  rw [month_windows_eq] at hp
  obtain ⟨i, hi, rfl⟩ := List.mem_map.mp hp
  rw [List.mem_range] at hi
  set c := minPair (end_.year, end_.month) (today.year, today.month) with hc
  have hcv := minPair_month_valid (end_.year, end_.month) (today.year, today.month)
    end_.month_valid.1 end_.month_valid.2 today.month_valid.1 today.month_valid.2
  have hct : mlin c ≤ mlin (today.year, today.month) := by
    rw [hc]
    unfold minPair
    split
    · rename_i h
      exact (pairLe_iff_mlin _ _ end_.month_valid.1 end_.month_valid.2
        today.month_valid.1 today.month_valid.2).mp h
    · exact le_refl _
  have hv := mofLin_month_valid (mlin (start.year, start.month) + i)
  rw [pairLe_iff_mlin _ _ hv.1 hv.2 today.month_valid.1 today.month_valid.2,
    mlin_mofLin]
  omega

/-!  ## Raw date order  -/

theorem rawLe_mk_iff (a1 a2 a3 b1 b2 b3 : Nat) :
    rawLe (a1, a2, a3) (b1, b2, b3) ↔
      (a1 < b1 ∨ (a1 = b1 ∧ (a2 < b2 ∨ (a2 = b2 ∧ a3 ≤ b3)))) := Iff.rfl

theorem pairLe_mk_iff (a1 a2 b1 b2 : Nat) :
    pairLe (a1, a2) (b1, b2) ↔ (a1 < b1 ∨ (a1 = b1 ∧ a2 ≤ b2)) := Iff.rfl

theorem Date.raw_def (d : Date) : d.raw = (d.year, d.month, d.day) := rfl

theorem rawLe_refl (a : RawDate) : rawLe a a := by
  obtain ⟨a1, a2, a3⟩ := a
  rw [rawLe_mk_iff]
  omega

theorem rawLe_trans {a b c : RawDate} (h1 : rawLe a b) (h2 : rawLe b c) :
    rawLe a c := by
  obtain ⟨a1, a2, a3⟩ := a
  obtain ⟨b1, b2, b3⟩ := b
  obtain ⟨c1, c2, c3⟩ := c
  rw [rawLe_mk_iff] at *
  omega

theorem rawLe_total (a b : RawDate) : rawLe a b ∨ rawLe b a := by
  obtain ⟨a1, a2, a3⟩ := a
  obtain ⟨b1, b2, b3⟩ := b
  rw [rawLe_mk_iff, rawLe_mk_iff]
  omega

theorem rawLe_month_le {a b : RawDate} (h : rawLe a b) :
    pairLe (a.1, a.2.1) (b.1, b.2.1) := by
  obtain ⟨a1, a2, a3⟩ := a
  obtain ⟨b1, b2, b3⟩ := b
  rw [rawLe_mk_iff] at h
  dsimp only
  rw [pairLe_mk_iff]
  omega

theorem rawLe_first_iff (ym : Nat × Nat) (c : RawDate) (hc : 1 ≤ c.2.2) :
    rawLe (ym.1, ym.2, 1) c ↔ pairLe ym (c.1, c.2.1) := by
  obtain ⟨y, m⟩ := ym
  obtain ⟨c1, c2, c3⟩ := c
  dsimp only at hc ⊢
  rw [rawLe_mk_iff, pairLe_mk_iff]
  omega

theorem le_minRaw {d : RawDate} (a b : RawDate) (h1 : rawLe d a) (h2 : rawLe d b) :
    rawLe d (minRaw a b) := by
  unfold minRaw
  split <;> assumption

theorem minRaw_le_right (a b : RawDate) : rawLe (minRaw a b) b := by
  unfold minRaw
  split
  · assumption
  · exact rawLe_refl b

theorem minRaw_le_left {d : RawDate} (a b : RawDate) (h : rawLe d (minRaw a b)) :
    rawLe d a := by
  unfold minRaw at h
  split at h
  · exact h
  · rcases rawLe_total a b with hab | hba
    · exact absurd hab (by assumption)
    · exact rawLe_trans h hba

theorem minDate_raw (a b : Date) : (minDate a b).raw = minRaw a.raw b.raw := by
  unfold minDate minRaw
  split <;> rfl

theorem rawLe_minDate {d : RawDate} (e t : Date) (h1 : rawLe d e.raw)
    (h2 : rawLe d t.raw) : rawLe d (minDate e t).raw := by
  rw [minDate_raw]
  exact le_minRaw _ _ h1 h2

/-!  ## Date-window loop characterisation  -/

/-- The windowing loop of `month_date_windows` emits the per-month
windows of consecutive month indices while the first of the month is
within the cutoff, up to its fuel. -/
theorem month_date_windows_loop_eq (c : Date) :
    ∀ (fuel : Nat) (ym : Nat × Nat), 1 ≤ ym.2 → ym.2 ≤ 12 →
      month_date_windows_loop c.raw fuel ym =
        (List.range (min fuel (mlin (c.year, c.month) + 1 - mlin ym))).map
          (fun i => winOf (mlin ym + i) c.raw) := by
  intro fuel
  induction fuel with
  | zero => intro ym h1 h2; simp [month_date_windows_loop]
  | succ n ih =>
      intro ym h1 h2
      have hguard : rawLe (ym.1, ym.2, 1) c.raw ↔ pairLe ym (c.year, c.month) := by
        have := rawLe_first_iff ym c.raw c.day_valid.1
        rwa [Date.raw_def] at this
      by_cases hg : rawLe (ym.1, ym.2, 1) c.raw
      · have hle : mlin ym ≤ mlin (c.year, c.month) :=
          (pairLe_iff_mlin ym (c.year, c.month) h1 h2
            c.month_valid.1 c.month_valid.2).mp (hguard.mp hg)
        have hsv := monthSucc_valid ym h1 h2
        rw [month_date_windows_loop, if_pos hg, ih (monthSucc ym) hsv.1 hsv.2,
          mlin_monthSucc ym h1 h2]
        have hk : min (n + 1) (mlin (c.year, c.month) + 1 - mlin ym)
            = (min n (mlin (c.year, c.month) + 1 - (mlin ym + 1))) + 1 := by omega
        rw [hk, List.range_succ_eq_map, List.map_cons, List.map_map]
        dsimp only
        congr 1
        · rw [Nat.add_zero]
          unfold winOf
          rw [mofLin_mlin ym h1 h2]
        · congr 1
          funext i
          simp only [Function.comp, Nat.succ_eq_add_one]
          have harg : mlin ym + 1 + i = mlin ym + (i + 1) := by omega
          rw [harg]
      · rw [month_date_windows_loop, if_neg hg]
        have hgt : ¬ mlin ym ≤ mlin (c.year, c.month) := fun h =>
          hg (hguard.mpr ((pairLe_iff_mlin ym (c.year, c.month) h1 h2
            c.month_valid.1 c.month_valid.2).mpr h))
        have : min (n + 1) (mlin (c.year, c.month) + 1 - mlin ym) = 0 := by omega
        rw [this]
        simp

/-- `month_date_windows` is the per-month window list of the
consecutive month indices from start's month through the month of
`min(end, today)`. -/
theorem month_date_windows_eq (start end_ today : Date) :
    month_date_windows start end_ today =
      (List.range (mlin ((minDate end_ today).year, (minDate end_ today).month) + 1
          - mlin (start.year, start.month))).map
        (fun i => winOf (mlin (start.year, start.month) + i) (minDate end_ today).raw) := by
  unfold month_date_windows
  rw [month_date_windows_loop_eq (minDate end_ today) _ _
    start.month_valid.1 start.month_valid.2, Nat.min_self]

/-- A valid day `d` at most the cutoff lies in the month-`n` window
exactly when `n` is `d`'s month index. -/
theorem mem_winOf_iff (d c : Date) (n : Nat) (hdc : rawLe d.raw c.raw) :
    (rawLe (winOf n c.raw).1 d.raw ∧ rawLe d.raw (winOf n c.raw).2) ↔
      mlin (d.year, d.month) = n := by
  have hnv := mofLin_month_valid n
  constructor
  · rintro ⟨h1, h2⟩
    have ha : pairLe ((mofLin n).1, (mofLin n).2) (d.year, d.month) := by
      have := rawLe_month_le h1
      simpa [winOf, Date.raw_def] using this
    have hlast : rawLe d.raw
        ((mofLin n).1, (mofLin n).2, daysInMonth (mofLin n).1 (mofLin n).2) :=
      minRaw_le_left _ _ h2
    have hb : pairLe (d.year, d.month) ((mofLin n).1, (mofLin n).2) := by
      have := rawLe_month_le hlast
      simpa [Date.raw_def] using this
    have hle1 : n ≤ mlin (d.year, d.month) := by
      have := (pairLe_iff_mlin _ _ hnv.1 hnv.2 d.month_valid.1 d.month_valid.2).mp
        (by simpa using ha)
      rwa [mlin_mofLin] at this
    have hle2 : mlin (d.year, d.month) ≤ n := by
      have := (pairLe_iff_mlin _ _ d.month_valid.1 d.month_valid.2 hnv.1 hnv.2).mp
        (by simpa using hb)
      rwa [mlin_mofLin] at this
    omega
  · intro h
    have hmof : mofLin n = (d.year, d.month) := by
      rw [← h]
      exact mofLin_mlin _ d.month_valid.1 d.month_valid.2
    have hy : (mofLin n).1 = d.year := by rw [hmof]
    have hm : (mofLin n).2 = d.month := by rw [hmof]
    unfold winOf
    rw [hy, hm]
    constructor
    · show rawLe (d.year, d.month, 1) d.raw
      rw [Date.raw_def d, rawLe_mk_iff]
      have := d.day_valid.1
      omega
    · show rawLe d.raw (minRaw (d.year, d.month, daysInMonth d.year d.month) c.raw)
      refine le_minRaw _ _ ?_ hdc
      rw [Date.raw_def d, rawLe_mk_iff]
      have := d.day_valid.2
      omega

/-- Counting an index in a range: each `j < K` occurs exactly once. -/
theorem countP_range_eq_one (K j : Nat) (h : j < K) :
    (List.range K).countP (fun i => decide (i = j)) = 1 := by
  induction K with
  | zero => omega
  | succ n ih =>
      have hr : List.range (n + 1) = List.range n ++ [n] := List.range_succ n
      rw [hr, List.countP_append]
      by_cases hj : j = n
      · subst hj
        have h0 : (List.range j).countP (fun i => decide (i = j)) = 0 := by
          rw [List.countP_eq_zero]
          intro a ha
          rw [List.mem_range] at ha
          simp only [decide_eq_true_eq]
          omega
        rw [h0]
        simp
      · have hj2 : j < n := by omega
        rw [ih hj2]
        have h0 : List.countP (fun i => decide (i = j)) [n] = 0 := by
          rw [List.countP_eq_zero]
          intro a ha
          rw [List.mem_singleton] at ha
          subst ha
          simp only [decide_eq_true_eq]
          omega
        rw [h0]

theorem range_getElem?_eq {n m j : Nat} (h : (List.range n)[m]? = some j) :
    j = m := by
  by_cases hlt : m < n
  · rw [List.getElem?_range hlt] at h
    injection h with h
    exact h.symm
  · rw [List.getElem?_eq_none (by simpa using Nat.le_of_not_lt hlt)] at h
    exact absurd h (by simp)

theorem rawLe_dates_month {a b : Date} (h : rawLe a.raw b.raw) :
    pairLe (a.year, a.month) (b.year, b.month) := by
  have := rawLe_month_le h
  simpa [Date.raw_def] using this

/-- Any day between `start` and the cutoff is covered by exactly one
window of `month_date_windows`. -/
theorem month_date_windows_cover (start end_ today : Date) (d : Date)
    (hd1 : rawLe start.raw d.raw)
    (hdc : rawLe d.raw (minDate end_ today).raw) :
    (month_date_windows start end_ today).countP
        (fun w => decide (rawLe w.1 d.raw ∧ rawLe d.raw w.2)) = 1 := by
  have hmd : mlin (start.year, start.month) ≤ mlin (d.year, d.month) :=
    (pairLe_iff_mlin _ _ start.month_valid.1 start.month_valid.2
      d.month_valid.1 d.month_valid.2).mp (rawLe_dates_month hd1)
  have hdm : mlin (d.year, d.month) ≤
      mlin ((minDate end_ today).year, (minDate end_ today).month) :=
    (pairLe_iff_mlin _ _ d.month_valid.1 d.month_valid.2
      (minDate end_ today).month_valid.1 (minDate end_ today).month_valid.2).mp
      (rawLe_dates_month hdc)
  rw [month_date_windows_eq, List.countP_map]
  refine Eq.trans (List.countP_congr ?_)
    (countP_range_eq_one
      (mlin ((minDate end_ today).year, (minDate end_ today).month) + 1
        - mlin (start.year, start.month))
      (mlin (d.year, d.month) - mlin (start.year, start.month)) (by omega))
  intro i hi
  rw [List.mem_range] at hi
  simp only [Function.comp_apply, decide_eq_true_eq]
  rw [mem_winOf_iff d (minDate end_ today) _ hdc]
  omega

/-- C1: for start ≤ min(end, today), `month_date_windows` yields
contiguous non-overlapping calendar-month windows: every day in
[start, end] ∩ (−∞, today] lies in exactly one window, no window end
exceeds min(end, today), the first window starts on the first day of
start's month, a December window is followed by January of the next
year, and for start 2019-02-01, end 2019-04-15 and any today on or
after 2019-04-15 the result is exactly the three windows of the spec
scenario. -/
theorem month_date_windows_correct (start end_ today : Date)
    (hs : rawLe start.raw (minDate end_ today).raw) :
    (∀ d : Date, rawLe start.raw d.raw → rawLe d.raw end_.raw →
      rawLe d.raw today.raw →
      (month_date_windows start end_ today).countP
          (fun w => decide (rawLe w.1 d.raw ∧ rawLe d.raw w.2)) = 1)
    ∧ (∀ w ∈ month_date_windows start end_ today,
        rawLe w.2 (minDate end_ today).raw)
    ∧ ((month_date_windows start end_ today).head? =
        some ((start.year, start.month, 1),
          minRaw (start.year, start.month, daysInMonth start.year start.month)
            (minDate end_ today).raw))
    ∧ (∀ i : Nat, ∀ w1 w2 : RawDate × RawDate,
        (month_date_windows start end_ today)[i]? = some w1 →
        (month_date_windows start end_ today)[i + 1]? = some w2 →
        w1.1.2.1 = 12 → w2.1 = (w1.1.1 + 1, 1, 1))
    ∧ (∀ today2 : Date, rawLe d2019_04_15.raw today2.raw →
        month_date_windows d2019_02_01 d2019_04_15 today2 =
          [((2019, 2, 1), (2019, 2, 28)), ((2019, 3, 1), (2019, 3, 31)),
           ((2019, 4, 1), (2019, 4, 15))]) := by
  refine ⟨?cov, ?past, ?head, ?roll, ?scen⟩
  case cov =>
    intro d hd1 hd2 hd3
    exact month_date_windows_cover start end_ today d hd1
      (rawLe_minDate end_ today hd2 hd3)
  case past =>
    intro w hw
    rw [month_date_windows_eq] at hw
    obtain ⟨i, hi, rfl⟩ := List.mem_map.mp hw
    exact minRaw_le_right _ _
  case head =>
    have hsc : mlin (start.year, start.month) ≤
        mlin ((minDate end_ today).year, (minDate end_ today).month) :=
      (pairLe_iff_mlin _ _ start.month_valid.1 start.month_valid.2
        (minDate end_ today).month_valid.1 (minDate end_ today).month_valid.2).mp
        (rawLe_dates_month hs)
    rw [month_date_windows_eq]
    obtain ⟨k, hk⟩ : ∃ k, mlin ((minDate end_ today).year, (minDate end_ today).month) + 1
        - mlin (start.year, start.month) = k + 1 :=
      ⟨mlin ((minDate end_ today).year, (minDate end_ today).month)
        - mlin (start.year, start.month), by omega⟩
    rw [hk, List.range_succ_eq_map, List.map_cons, List.head?_cons]
    have h0 : mofLin (mlin (start.year, start.month)) = (start.year, start.month) :=
      mofLin_mlin _ start.month_valid.1 start.month_valid.2
    simp [winOf, h0]
  case roll =>
    intro i w1 w2 hw1 hw2 h12
    rw [month_date_windows_eq] at hw1 hw2
    rw [List.getElem?_map] at hw1 hw2
    obtain ⟨j1, hj1, hf1⟩ := Option.map_eq_some'.mp hw1
    obtain ⟨j2, hj2, hf2⟩ := Option.map_eq_some'.mp hw2
    have he1 : j1 = i := range_getElem?_eq hj1
    have he2 : j2 = i + 1 := range_getElem?_eq hj2
    subst he1
    subst he2
    subst hf1
    subst hf2
    simp only [winOf, mofLin, Prod.mk.injEq, and_true] at h12 ⊢
    omega
  case scen =>
    intro today2 h2
    have hmin : minDate d2019_04_15 today2 = d2019_04_15 := by
      unfold minDate
      rw [if_pos h2]
    simp only [month_date_windows, hmin]
    decide

theorem month_windows_correct_witness :
    pairLe (2023, 5) (d2024_06_15.year, d2024_06_15.month) :=
  month_windows_correct.2.1 d2023_01_01 d2024_12_31 d2024_06_15 (2023, 5) (by decide)

theorem month_date_windows_correct_witness :
    month_date_windows d2019_02_01 d2019_04_15 d2019_04_15 =
      [((2019, 2, 1), (2019, 2, 28)), ((2019, 3, 1), (2019, 3, 31)),
       ((2019, 4, 1), (2019, 4, 15))] :=
  (month_date_windows_correct d2019_02_01 d2019_04_15 d2019_04_15
    (by decide)).2.2.2.2 d2019_04_15 (by decide)

/-- C5: `unwrap_list` maps a bare dict and the one-element list holding
the same dict to the same one-element list, so any flatten function
mapped over the unwrapped field produces identical flat records for the
singleton form and the one-element-sequence form; the private copy in
`extract_comissoes.py` agrees with the shared helper on every input. -/
theorem unwrap_list_singleton {α : Type} (d : α) :
    unwrap_list (ListOrDict.dict d) = unwrap_list (ListOrDict.list [d])
    ∧ unwrap_list (ListOrDict.dict d) = [d]
    ∧ (∀ β : Type, ∀ f : α → β,
        (unwrap_list (ListOrDict.dict d)).map f =
          (unwrap_list (ListOrDict.list [d])).map f)
    ∧ (∀ x : ListOrDict α, comissoes_unwrap_list x = unwrap_list x) :=
  ⟨rfl, rfl, fun _ _ => rfl, fun x => by cases x <;> rfl⟩

/-- C10: `unwrap_list(None)` is the empty list, so callers iterating
over the unwrapped value of an absent or null field process nothing. -/
theorem unwrap_list_none {α : Type} :
    unwrap_list (ListOrDict.none : ListOrDict α) = []
    ∧ (∀ β : Type, ∀ f : α → β,
        (unwrap_list (ListOrDict.none : ListOrDict α)).map f = []) :=
  ⟨rfl, fun _ _ => rfl⟩

/-- C6: `save_parquet` on an empty record list returns 0 and leaves the
file-system state — the file at the output path and the parent
directory — exactly as it was. -/
theorem save_parquet_empty_noop (path parent : String)
    (unique_subset sort_by : Option (List String)) (fs : FileSystem) :
    save_parquet [] path parent unique_subset sort_by fs = (0, fs)
    ∧ (save_parquet [] path parent unique_subset sort_by fs).2.files path =
        fs.files path
    ∧ (save_parquet [] path parent unique_subset sort_by fs).2.dirs parent =
        fs.dirs parent :=
  ⟨rfl, rfl, rfl⟩

/-- C8: the kwargs `_run_one` builds contain exactly the values of the
declared argument tags — changing only CLI temporal values whose tags
the extractor does not declare leaves the kwargs identical, and an
empty tag list yields empty kwargs. -/
theorem build_kwargs_only_declared (tags : List String)
    (sy ey sy2 ey2 : Int) (sd ed sd2 ed2 : Date)
    (hsy : tags.contains "start_year" = true → sy = sy2)
    (hey : tags.contains "end_year" = true → ey = ey2)
    (hsd : tags.contains "start_date" = true → sd = sd2)
    (hed : tags.contains "end_date" = true → ed = ed2) :
    build_kwargs tags sy ey sd ed = build_kwargs tags sy2 ey2 sd2 ed2
    ∧ build_kwargs [] sy ey sd ed = ⟨none, none, none, none⟩ := by
  constructor
  · unfold build_kwargs
    simp only [Kwargs.mk.injEq]
    refine ⟨?_, ?_, ?_, ?_⟩
    · by_cases h : tags.contains "start_year" = true
      · simp [h, hsy h]
      · simp at h
        simp [h]
    · by_cases h : tags.contains "end_year" = true
      · simp [h, hey h]
      · simp at h
        simp [h]
    · by_cases h : tags.contains "start_date" = true
      · simp [h, hsd h]
      · simp at h
        simp [h]
    · by_cases h : tags.contains "end_date" = true
      · simp [h, hed h]
      · simp at h
        simp [h]
  · rfl

theorem build_kwargs_only_declared_witness :
    build_kwargs ["start_year"] 1 1 d2019_02_01 d2019_02_01 =
      build_kwargs ["start_year"] 1 2 d2019_04_15 d2019_04_15
    ∧ build_kwargs [] 1 1 d2019_02_01 d2019_02_01 = ⟨none, none, none, none⟩ :=
  build_kwargs_only_declared ["start_year"] 1 1 1 2 d2019_02_01 d2019_02_01
    d2019_04_15 d2019_04_15 (fun _ => rfl) (fun h => by simp at h)
    (fun h => by simp at h) (fun h => by simp at h)

theorem run_loop_append (l1 l2 : List (String × Entry)) (sy ey : Int)
    (sd ed : Date) :
    run_loop (l1 ++ l2) sy ey sd ed =
      run_loop l1 sy ey sd ed ++ run_loop l2 sy ey sd ed := by
  induction l1 with
  | nil => rfl
  | cons p rest ih =>
      obtain ⟨name, entry⟩ := p
      rw [List.cons_append, run_loop, run_loop, ih, List.cons_append]

theorem run_loop_map_fst (l : List (String × Entry)) (sy ey : Int)
    (sd ed : Date) :
    (run_loop l sy ey sd ed).map Prod.fst = l.map Prod.fst := by
  induction l with
  | nil => rfl
  | cons p rest ih =>
      obtain ⟨name, entry⟩ := p
      rw [run_loop, List.map_cons, List.map_cons, ih]

/-- C3: if one extractor's entry point raises, `_run_one` catches the
exception and records the `FAILED [name]: error` log line, every
extractor scheduled after it still runs with its own outcome, every
selected extractor appears in the run report, and the process exit
code stays 0 (usage-level success). -/
theorem pipeline_isolates_failures (pre post : List (String × Entry))
    (name : String) (entry : Entry) (sy ey : Int) (sd ed : Date) (msg : String)
    (hfail : entry.fn (build_kwargs entry.args sy ey sd ed) = .error msg) :
    main_run (pre ++ (name, entry) :: post) sy ey sd ed =
      (run_loop pre sy ey sd ed ++
        (name, RunOutcome.failed ("FAILED [" ++ name ++ "]: " ++ msg)) ::
          run_loop post sy ey sd ed, 0)
    ∧ (main_run (pre ++ (name, entry) :: post) sy ey sd ed).1.map Prod.fst =
        (pre ++ (name, entry) :: post).map Prod.fst := by
  have hone : run_one name entry sy ey sd ed =
      RunOutcome.failed ("FAILED [" ++ name ++ "]: " ++ msg) := by
    unfold run_one
    rw [hfail]
  constructor
  · unfold main_run
    rw [run_loop_append, run_loop, hone]
  · unfold main_run
    rw [run_loop_map_fst]

theorem pipeline_isolates_failures_witness :
    main_run [("a", okEntry), ("x", failEntry), ("b", okEntry)] 1 1
        d2019_02_01 d2019_02_01 =
      (run_loop [("a", okEntry)] 1 1 d2019_02_01 d2019_02_01 ++
        ("x", RunOutcome.failed ("FAILED [" ++ "x" ++ "]: " ++ "boom")) ::
          run_loop [("b", okEntry)] 1 1 d2019_02_01 d2019_02_01, 0)
    ∧ (main_run [("a", okEntry), ("x", failEntry), ("b", okEntry)] 1 1
        d2019_02_01 d2019_02_01).1.map Prod.fst =
        ([("a", okEntry), ("x", failEntry), ("b", okEntry)]).map Prod.fst :=
  pipeline_isolates_failures [("a", okEntry)] [("b", okEntry)] "x" failEntry
    1 1 d2019_02_01 d2019_02_01 "boom" rfl

theorem dedupBy_mem (K : List String) (l : List Row) :
    ∀ x ∈ dedupBy K l, x ∈ l := by
  induction l using dedupBy.induct K with
  | case1 => intro x hx; simp [dedupBy] at hx
  | case2 r rs ih =>
      intro x hx
      rw [dedupBy] at hx
      rcases List.mem_cons.mp hx with h | h
      · exact h ▸ List.mem_cons_self _ _
      · exact List.mem_cons_of_mem _ (List.mem_of_mem_filter (ih x h))

theorem dedupBy_keys_nodup (K : List String) (l : List Row) :
    ((dedupBy K l).map (keyOf K)).Nodup := by
  induction l using dedupBy.induct K with
  | case1 => simp [dedupBy]
  | case2 r rs ih =>
      rw [dedupBy, List.map_cons, List.nodup_cons]
      refine ⟨?_, ih⟩
      intro hmem
      obtain ⟨y, hy, hky⟩ := List.mem_map.mp hmem
      have hyf := dedupBy_mem K _ y hy
      have hne := List.of_mem_filter hyf
      simp only [Bool.not_eq_eq_eq_not, Bool.not_true, beq_eq_false_iff_ne,
        ne_eq] at hne
      exact hne hky

theorem dedupBy_covers (K : List String) (l : List Row) :
    ∀ x ∈ l, ∃ y ∈ dedupBy K l, keyOf K y = keyOf K x := by
  induction l using dedupBy.induct K with
  | case1 => intro x hx; simp at hx
  | case2 r rs ih =>
      intro x hx
      by_cases hk : keyOf K x = keyOf K r
      · exact ⟨r, by rw [dedupBy]; exact List.mem_cons_self _ _, hk.symm⟩
      · rcases List.mem_cons.mp hx with h | h
        · exact absurd (h ▸ rfl) hk
        · have hxf : x ∈ rs.filter (fun z => !(keyOf K z == keyOf K r)) :=
            List.mem_filter.mpr ⟨h, by simp [hk]⟩
          obtain ⟨y, hy, hky⟩ := ih x hxf
          exact ⟨y, by rw [dedupBy]; exact List.mem_cons_of_mem _ hy, hky⟩

/-- The row count of the deduplicated table is the number of distinct
natural-key tuples in the input. -/
theorem dedupBy_length (K : List String) (l : List Row) :
    (dedupBy K l).length = distinctKeyCount K l := by
  have hnd := dedupBy_keys_nodup K l
  have hset : ((dedupBy K l).map (keyOf K)).toFinset =
      (l.map (keyOf K)).toFinset := by
    apply Finset.ext
    intro k
    simp only [List.mem_toFinset, List.mem_map]
    constructor
    · rintro ⟨y, hy, rfl⟩
      exact ⟨y, dedupBy_mem K l y hy, rfl⟩
    · rintro ⟨y, hy, rfl⟩
      obtain ⟨z, hz, hkz⟩ := dedupBy_covers K l y hy
      exact ⟨z, hz, hkz⟩
  calc (dedupBy K l).length
      = ((dedupBy K l).map (keyOf K)).length := by rw [List.length_map]
    _ = ((dedupBy K l).map (keyOf K)).toFinset.card :=
        (List.toFinset_card_of_nodup hnd).symm
    _ = (l.map (keyOf K)).toFinset.card := by rw [hset]
    _ = (l.map (keyOf K)).dedup.length := List.card_toFinset _
    _ = distinctKeyCount K l := rfl

theorem insertRow_length (cols : List String) (r : Row) (l : List Row) :
    (insertRow cols r l).length = l.length + 1 := by
  induction l with
  | nil => rfl
  | cons x xs ih =>
      rw [insertRow]
      split
      · rfl
      · simp only [List.length_cons, ih]

theorem sortRows_length (cols : List String) (l : List Row) :
    (sortRows cols l).length = l.length := by
  induction l with
  | nil => rfl
  | cons x xs ih =>
      rw [sortRows, insertRow_length, ih, List.length_cons]

/-- The row count `save_parquet` returns with a non-empty
`unique_subset` is the distinct-key count, whatever the sort option. -/
theorem save_parquet_count (records : List Row) (path parent : String)
    (K : List String) (sort_by : Option (List String)) (fs : FileSystem)
    (hK : K ≠ []) :
    (save_parquet records path parent (some K) sort_by fs).1 =
      distinctKeyCount K records := by
  have hKe : K.isEmpty = false := by
    cases K
    · exact absurd rfl hK
    · rfl
  by_cases hrec : records.isEmpty
  · have hnil : records = [] := List.isEmpty_iff.mp hrec
    subst hnil
    simp [save_parquet, distinctKeyCount]
  · unfold save_parquet
    rw [if_neg hrec]
    cases sort_by with
    | none => simp [hKe, dedupBy_length]
    | some cols =>
        by_cases hc : cols.isEmpty
        · simp [hKe, hc, dedupBy_length]
        · simp only [hKe, hc, Bool.false_eq_true, if_false]
          simp [sortRows_length, dedupBy_length]

theorem distinctKeyCount_perm (K : List String) {l l2 : List Row}
    (h : l.Perm l2) : distinctKeyCount K l = distinctKeyCount K l2 :=
  ((h.map (keyOf K)).dedup).length_eq

theorem distinctKeyCount_double (K : List String) (l : List Row) :
    distinctKeyCount K (l ++ l) = distinctKeyCount K l := by
  unfold distinctKeyCount
  rw [← List.card_toFinset, ← List.card_toFinset, List.map_append,
    List.toFinset_append, Finset.union_self]

theorem distinctKeyCount_const (K : List String) (l : List Row) (hne : l ≠ [])
    (hall : ∀ r1 ∈ l, ∀ r2 ∈ l, keyOf K r1 = keyOf K r2) :
    distinctKeyCount K l = 1 := by
  obtain ⟨r0, rest, rfl⟩ : ∃ r0 rest, l = r0 :: rest := by
    cases l
    · exact absurd rfl hne
    · exact ⟨_, _, rfl⟩
  unfold distinctKeyCount
  rw [← List.card_toFinset]
  have hone : ((r0 :: rest).map (keyOf K)).toFinset = {keyOf K r0} := by
    apply Finset.ext
    intro k
    simp only [List.mem_toFinset, List.mem_map, Finset.mem_singleton]
    constructor
    · rintro ⟨y, hy, rfl⟩
      exact hall y hy r0 (List.mem_cons_self _ _)
    · rintro rfl
      exact ⟨r0, List.mem_cons_self _ _, rfl⟩
  rw [hone, Finset.card_singleton]

/-- C2: on flat records sharing one column set and containing the
natural-key columns, `save_parquet` with `unique_subset=K` returns the
number of distinct K-tuples; the count is invariant under permuting the
input and under writing the whole collection twice, and an input whose
records share a single key value counts 1. -/
theorem save_parquet_dedup_count (records : List Row) (path parent : String)
    (K : List String) (sort_by : Option (List String)) (fs : FileSystem)
    (cols : List String) (hK : K ≠ [])
    (hsame : ∀ r ∈ records, r.map Prod.fst = cols)
    (hkeys : ∀ r ∈ records, ∀ c ∈ K, (List.lookup c r).isSome = true) :
    (save_parquet records path parent (some K) sort_by fs).1 =
      distinctKeyCount K records
    ∧ (∀ records2 : List Row, records.Perm records2 →
        (save_parquet records2 path parent (some K) sort_by fs).1 =
          (save_parquet records path parent (some K) sort_by fs).1)
    ∧ (save_parquet (records ++ records) path parent (some K) sort_by fs).1 =
        (save_parquet records path parent (some K) sort_by fs).1
    ∧ (records ≠ [] →
        (∀ r1 ∈ records, ∀ r2 ∈ records, keyOf K r1 = keyOf K r2) →
        (save_parquet records path parent (some K) sort_by fs).1 = 1) := by
  refine ⟨save_parquet_count records path parent K sort_by fs hK, ?_, ?_, ?_⟩
  · intro records2 hperm
    rw [save_parquet_count _ _ _ _ _ _ hK, save_parquet_count _ _ _ _ _ _ hK]
    exact (distinctKeyCount_perm K hperm).symm
  · rw [save_parquet_count _ _ _ _ _ _ hK, save_parquet_count _ _ _ _ _ _ hK,
      distinctKeyCount_double]
  · intro hne hall
    rw [save_parquet_count _ _ _ _ _ _ hK]
    exact distinctKeyCount_const K records hne hall

theorem save_parquet_dedup_count_witness :
    (save_parquet [[("a", Value.vint 1)], [("a", Value.vint 1)]] "out" "dir"
      (some ["a"]) none emptyFS).1 = 1 :=
  (save_parquet_dedup_count [[("a", Value.vint 1)], [("a", Value.vint 1)]]
    "out" "dir" ["a"] none emptyFS ["a"] (by decide) (by decide)
    (by decide)).2.2.2 (by decide) (by decide)

/-- The pagination loop of `get_all` computes `collect_pages` with the
remaining page budget, whatever the accumulator. -/
theorem get_all_loop_collect {α : Type} (src : String → Option Params → Envelope α)
    (max_pages : Nat) :
    ∀ (b pages_fetched : Nat), max_pages - pages_fetched = b →
      ∀ (u : String) (ps : Option Params) (acc : List α),
        get_all_loop src (some u) ps pages_fetched max_pages acc =
          acc ++ (collect_pages src b u ps).1 := by
  intro b
  induction b with
  | zero =>
      intro f hf u ps acc
      rw [get_all_loop, if_neg (by omega)]
      simp [collect_pages]
  | succ n ih =>
      intro f hf u ps acc
      rw [get_all_loop, if_pos (by omega)]
      dsimp only
      by_cases hrec : ((src u ps).dados.getD []).isEmpty
      · rw [if_pos hrec, collect_pages]
        dsimp only
        rw [if_pos hrec]
        simp
      · rw [if_neg hrec, collect_pages]
        dsimp only
        rw [if_neg hrec]
        cases hnl : next_link (src u ps) with
        | none =>
            rw [get_all_loop]
        | some u2 =>
            rw [ih (f + 1) (by omega) u2 none (acc ++ (src u ps).dados.getD [])]
            dsimp only
            rw [List.append_assoc]

/-- When every page of the source is non-empty and linked, the
collector fetches exactly its page budget. -/
theorem collect_pages_count {α : Type} (src : String → Option Params → Envelope α)
    (H : ∀ u ps, (src u ps).dados.getD [] ≠ [] ∧
      (next_link (src u ps)).isSome = true) :
    ∀ (b : Nat) (u : String) (ps : Option Params),
      (collect_pages src b u ps).2 = b := by
  intro b
  induction b with
  | zero => intro u ps; rfl
  | succ n ih =>
      intro u ps
      have hrec : ((src u ps).dados.getD []).isEmpty = false := by
        cases hh : ((src u ps).dados.getD []).isEmpty
        · rfl
        · exact absurd (List.isEmpty_iff.mp hh) (H u ps).1
      obtain ⟨u2, hu2⟩ := Option.isSome_iff_exists.mp (H u ps).2
      rw [collect_pages]
      dsimp only
      rw [if_neg (by rw [hrec]; exact Bool.false_ne_true), hu2]
      dsimp only
      rw [ih u2 none]

/-- C4: `get_all` follows `next` links and concatenates page records
exactly as the reference collector does (which stops at the first
empty page, at a missing `next` link, or when the page budget runs
out); when the caller supplies no `itens` key the first request's
parameters gain `itens=100`; and on a source whose every page is
non-empty and linked, exactly `cap` pages are fetched. -/
theorem get_all_pagination {α : Type} (src : String → Option Params → Envelope α)
    (path : String) (params : Option Params) (cap : Nat) :
    get_all src path params cap =
        (collect_pages src cap (CAMARA_BASE ++ path) (some (with_itens params))).1
    ∧ ((params.getD []).any (fun kv => kv.1 == "itens") = false →
        with_itens params = params.getD [] ++ [("itens", Value.vint 100)])
    ∧ ((∀ u ps, (src u ps).dados.getD [] ≠ [] ∧
          (next_link (src u ps)).isSome = true) →
        (collect_pages src cap (CAMARA_BASE ++ path)
          (some (with_itens params))).2 = cap) := by
  refine ⟨?_, ?_, ?_⟩
  · unfold get_all
    rw [get_all_loop_collect src cap cap 0 (by omega) _ _ []]
    rw [List.nil_append]
  · intro h
    unfold with_itens
    rw [if_neg (by rw [h]; exact Bool.false_ne_true)]
  · intro H
    exact collect_pages_count src H cap _ _

theorem srcNext_good : ∀ (u : String) (ps : Option Params),
    (srcNext u ps).dados.getD [] ≠ [] ∧
      (next_link (srcNext u ps)).isSome = true :=
  fun _ _ => ⟨fun h => List.noConfusion h, rfl⟩

theorem get_all_pagination_witness :
    (collect_pages srcNext 3 (CAMARA_BASE ++ "/x") (some (with_itens none))).2 = 3 :=
  (get_all_pagination srcNext "/x" none 3).2.2 srcNext_good

theorem contains_of_mem {c : Char} {l : PStr} (h : c ∈ l) :
    l.contains c = true := by simpa using h

theorem contains_eq_false {c : Char} {l : PStr} (h : ¬ c ∈ l) :
    l.contains c = false := by
  cases hc : l.contains c
  · rfl
  · exact absurd (by simpa using hc) h

/-- `split(sep, 1)` on a string whose first separator is explicit. -/
theorem splitFirst_append (c : Char) (ty rest : PStr) (hty : ¬ c ∈ ty) :
    splitFirst c (ty ++ c :: rest) = (ty, rest) := by
  induction ty with
  | nil => simp [splitFirst]
  | cons a as ih =>
      have hac : ¬ a = c := fun h => hty (h ▸ List.mem_cons_self _ _)
      have has : ¬ c ∈ as := fun h => hty (List.mem_cons_of_mem _ h)
      rw [List.cons_append, splitFirst, if_neg hac]
      rw [ih has]

/-- `split(sep)` on a string not containing the separator. -/
theorem splitAll_not_mem (c : Char) (s : PStr) (h : ¬ c ∈ s) :
    splitAll c s = [s] := by
  induction s with
  | nil => rfl
  | cons a as ih =>
      have hac : ¬ a = c := fun he => h (he ▸ List.mem_cons_self _ _)
      have has : ¬ c ∈ as := fun he => h (List.mem_cons_of_mem _ he)
      rw [splitAll]
      rw [if_neg hac, ih has]

/-- `split(sep)` peels the part before the first separator. -/
theorem splitAll_append (c : Char) (num yr : PStr) (hnum : ¬ c ∈ num) :
    splitAll c (num ++ c :: yr) = num :: splitAll c yr := by
  induction num with
  | nil =>
      rw [List.nil_append, splitAll]
      rw [if_pos rfl]
  | cons a as ih =>
      have hac : ¬ a = c := fun he => hnum (he ▸ List.mem_cons_self _ _)
      have has : ¬ c ∈ as := fun he => hnum (List.mem_cons_of_mem _ he)
      rw [List.cons_append, splitAll]
      rw [if_neg hac, ih has]

/-- C9: `flatten_processo_record` never raises on identifiers lacking a
separator — no space yields null `numero_materia` and `ano_materia`, a
space but no slash after it yields null `ano_materia` — and on an
identifier of the grammar `<TYPE> <NUMBER>/<YEAR>` it returns
`sigla_materia = TYPE`, `numero_materia = NUMBER` and `ano_materia` the
integer value of `YEAR`. -/
theorem flatten_processo_separators (r : ProcRec) :
    (¬ ' ' ∈ r.identificacao.getD [] →
      ∃ out, flatten_processo_record r = some out ∧
        out.numero_materia = none ∧ out.ano_materia = none)
    ∧ (∀ ty rest : PStr, r.identificacao = some (ty ++ ' ' :: rest) →
        ¬ ' ' ∈ ty → ¬ '/' ∈ rest →
        ∃ out, flatten_processo_record r = some out ∧ out.ano_materia = none)
    ∧ (∀ ty num yr : PStr, ∀ y : Int,
        r.identificacao = some (ty ++ ' ' :: (num ++ '/' :: yr)) →
        ¬ ' ' ∈ ty → ty ≠ [] → ¬ '/' ∈ num → num ≠ [] → ¬ '/' ∈ yr →
        pyInt yr = some y →
        ∃ out, flatten_processo_record r = some out ∧
          out.sigla_materia = some ty ∧ out.numero_materia = some num ∧
          out.ano_materia = some y) := by
  refine ⟨?_, ?_, ?_⟩
  · intro h
    have hc := contains_eq_false h
    simp only [flatten_processo_record]
    rw [hc]
    simp
  · intro ty rest hid hty hsl
    have hmem : ' ' ∈ r.identificacao.getD [] := by
      rw [hid]
      exact List.mem_append_right _ (List.mem_cons_self _ _)
    have hc := contains_of_mem hmem
    have hcs := contains_eq_false hsl
    simp only [flatten_processo_record]
    rw [hc, if_pos rfl, hid]
    simp only [Option.getD_some]
    rw [splitFirst_append ' ' ty rest hty]
    simp only [hcs]
    simp
  · intro ty num yr y hid hty htyne hnum hnumne hyr hpy
    have hyrne : yr ≠ [] := by
      intro he
      subst he
      exact Option.noConfusion hpy
    have hmem : ' ' ∈ r.identificacao.getD [] := by
      rw [hid]
      exact List.mem_append_right _ (List.mem_cons_self _ _)
    have hc := contains_of_mem hmem
    have hcs : (num ++ '/' :: yr).contains '/' = true :=
      contains_of_mem (List.mem_append_right _ (List.mem_cons_self _ _))
    simp only [flatten_processo_record]
    rw [hc, if_pos rfl, hid]
    simp only [Option.getD_some]
    rw [splitFirst_append ' ' ty _ hty]
    simp only [hcs, if_pos rfl]
    rw [splitAll_append '/' num yr hnum, splitAll_not_mem '/' yr hyr]
    have hye : yr.isEmpty = false := by
      cases yr
      · exact absurd rfl hyrne
      · rfl
    have htye : (ty ++ ' ' :: (num ++ '/' :: yr)).isEmpty = false := by
      cases ty <;> rfl
    have hnume : num.isEmpty = false := by
      cases num
      · exact absurd rfl hnumne
      · rfl
    have htyem : ty.isEmpty = false := by
      cases ty
      · exact absurd rfl htyne
      · rfl
    simp [hye, hpy, htye, hnume, htyem]

theorem flatten_processo_separators_witness :
    ∃ out, flatten_processo_record procSample = some out ∧
      out.sigla_materia = some ("PL".toList) ∧
      out.numero_materia = some ("1234".toList) ∧
      out.ano_materia = some 2025 :=
  (flatten_processo_separators procSample).2.2 "PL".toList "1234".toList
    "2025".toList 2025 (by decide) (by decide) (by decide) (by decide)
    (by decide) (by decide) (by decide)

end Congress
